import Mathlib

/-!
Verification of the LRCP (Line Reversal Control Protocol) subsystem of the
protohacker repository: the datagram codec (`protocol.rs`), the per-session
state machine (`session.rs`), the router (`listener.rs`) and the line-reversal
application (`server.rs`).

Modelling conventions:
- Rust `String` / `&str` / `Vec<u8>` payloads are modelled as `List Char`
  (the protocol is ASCII; positions and lengths count characters, which for
  ASCII coincide with the byte counts used by the source).
- Rust machine integers (`u64`, `usize`) are modelled as `Nat`; the only
  subtractions performed by the source are guarded to be non-underflowing,
  so truncated `Nat` subtraction agrees with them.
- Recursions that are not structural in the source (string `replace`,
  `produce_chunks`, the line loop) are given a fuel argument that is always
  instantiated with the input length, which each loop strictly decreases,
  so the fuel never runs out on the actual call.
- Channel sends become explicit output lists: `udp` (datagram payloads sent
  to the peer), `upward` (byte chunks delivered to the application), and a
  `session_terminate` flag (the `SessionTerminate` notification to the
  router).  Timer arming/cancellation carries no session state and is not
  modelled.
-/

/-- Wire messages, from `protocol.rs` (`enum LrcpMessage`). -/
inductive LrcpMessage where
  | Connect (session_id : Nat)
  | ClientClose (session_id : Nat)
  | SessionTerminate (session_id : Nat)
  | Data (session_id : Nat) (pos : Nat) (escaped_data : List Char)
  | Ack (session_id : Nat) (length : Nat)
deriving DecidableEq

/-- Constant `const MAX_INT: u64 = 2_147_483_648; // 2^31` from `protocol.rs`. -/
def MAX_INT : Nat := 2147483648

/-- Numeric value of a digit string (most significant digit first). -/
def digitsVal (ds : List Char) : Nat :=
  ds.foldl (fun acc c => acc * 10 + (c.toNat - 48)) 0

/-- Model of Rust `str::parse::<u64>()`: an optional leading `+`, then one or
more decimal digits.  Rust additionally fails on values `≥ 2^64`; every such
value is also `≥ 2^31`, so after `parse_int`'s range check below the result
is identical and we keep the full `Nat` value here. -/
def rustParseU64 (s : List Char) : Option Nat :=
  let ds := if s.head? = some '+' then s.tail else s
  if ds ≠ [] ∧ ds.all Char.isDigit = true then some (digitsVal ds) else none

/-- Function `fn parse_int(s: &str) -> Result<u64>` from `protocol.rs`: Rust integer
parsing followed by the `n < MAX_INT` range check. -/
def parse_int (s : List Char) : Option Nat :=
  match rustParseU64 s with
  | some n => if n < MAX_INT then some n else none
  | none => none

/-- Loop body of `fn tokenize` from `protocol.rs`.  `lastIndex` is
`s.len() - 1` of the full tokenized string, `i` the index of the current
character, `acc` the token being accumulated, `tokens` the finished tokens.
Mirrors the source's `char_indices` loop with one-character lookahead. -/
def tokenizeGo (lastIndex : Nat) : Nat → Nat → List Char → List Char → List (List Char) → Option (List (List Char))
  | _, _, [], acc, tokens => some (tokens ++ [acc])
  | 0, _, _ :: _, _, _ => none
  | fuel + 1, i, c :: rest, acc, tokens =>
    if c = '\\' then
      match rest with
      | [] => none
      | next :: rest2 =>
        if next = '/' then
          if i + 1 ≠ lastIndex then
            tokenizeGo lastIndex fuel (i + 2) rest2 (acc ++ ['\\', '/']) tokens
          else
            tokenizeGo lastIndex fuel (i + 1) rest (acc ++ ['\\']) tokens
        else if next = '\\' then
          tokenizeGo lastIndex fuel (i + 2) rest2 (acc ++ ['\\', '\\']) tokens
        else
          tokenizeGo lastIndex fuel (i + 2) rest2 (acc ++ [next]) tokens
    else if c = '/' then
      tokenizeGo lastIndex fuel (i + 1) rest [] (tokens ++ [acc])
    else
      tokenizeGo lastIndex fuel (i + 1) rest (acc ++ [c]) tokens

/-- Function `fn tokenize(s: &str) -> Result<Vec<String>>` from `protocol.rs`.
The source computes `let last_index = s.len() - 1;` with `usize` arithmetic;
for empty `s` the loop body never runs, so the truncated `Nat` subtraction
is faithful to the release-mode behaviour.  The fuel `s.length` suffices
because every loop iteration consumes at least one character. -/
def tokenize (s : List Char) : Option (List (List Char)) :=
  tokenizeGo (s.length - 1) s.length 0 s [] []

/-- The `match parts.as_slice()` dispatch at the end of `fn parse_packet`. -/
def parseParts (parts : List (List Char)) : Option LrcpMessage :=
  match parts with
  | [t, a] =>
    if t = "connect".toList then (parse_int a).map (fun n => LrcpMessage.Connect n)
    else if t = "close".toList then (parse_int a).map (fun n => LrcpMessage.ClientClose n)
    else none
  | [t, a, b] =>
    if t = "ack".toList then
      (parse_int a).bind (fun n => (parse_int b).map (fun k => LrcpMessage.Ack n k))
    else none
  | [t, a, b, d] =>
    if t = "data".toList then
      (parse_int a).bind (fun n => (parse_int b).map (fun k => LrcpMessage.Data n k d))
    else none
  | _ => none

/-- Function `pub fn parse_packet(buf: &[u8]) -> Result<LrcpMessage>` from
`protocol.rs`.  The `std::str::from_utf8` step is modelled away by taking
the input already as characters; the leading/trailing `/` check, the
tokenizer, the *filtering out of empty fields*, and the dispatch follow the
source. -/
def parse_packet (s : List Char) : Option LrcpMessage :=
  if s.head? = some '/' ∧ s.getLast? = some '/' then
    match tokenize (s.drop 1) with
    | some toks => parseParts (toks.filter (fun t => t ≠ []))
    | none => none
  else none

/-- Model of Rust `str::replace(from, to)` (leftmost, non-overlapping, single
pass over the original string), with a fuel argument.  Each step consumes at
least one character when `pat ≠ []`, so fuel `s.length` suffices; the source
never calls `replace` with an empty pattern. -/
def replaceFuel (pat rep : List Char) : Nat → List Char → List Char
  | _, [] => []
  | 0, s => s
  | fuel + 1, c :: rest =>
    if pat ≠ [] ∧ pat.isPrefixOf (c :: rest) = true then
      rep ++ replaceFuel pat rep fuel ((c :: rest).drop pat.length)
    else
      c :: replaceFuel pat rep fuel rest

/-- Rust `s.replace(from, to)` for `List Char`. -/
def rustReplace (s pat rep : List Char) : List Char :=
  replaceFuel pat rep s.length s

/-- Function `pub fn escape_data(s: &str) -> String` from `protocol.rs`:
`s.replace("\\", "\\\\").replace("/", "\\/")`. -/
def escape_data (s : List Char) : List Char :=
  rustReplace (rustReplace s ['\\'] ['\\', '\\']) ['/'] ['\\', '/']

/-- Function `pub fn unescape_data(s: &str) -> String` from `protocol.rs`:
`s.replace("\\/", "/").replace("\\\\", "\\")`. -/
def unescape_data (s : List Char) : List Char :=
  rustReplace (rustReplace s ['\\', '/'] ['/']) ['\\', '\\'] ['\\']

-- ===== Session state machine (src/protohackers/problem7/lrcp/session.rs) =====

/-- Constant `const MAX_DATA_LENGTH: usize = 3000;` from `session.rs`. -/
def MAX_DATA_LENGTH : Nat := 3000

/-- The mutable state of `struct Session` (channels, timers and the peer
address carry no protocol state and are omitted; `last_activity` is a
timestamp in seconds). -/
structure Session where
  session_id : Nat
  in_position : Nat
  out_position : Nat
  acked_out_position : Nat
  pending_out_payload : List Char
  last_activity : Nat
deriving DecidableEq

/-- Type `enum SessionEvent` from `session.rs`. -/
inductive SessionEvent where
  | Data (pos : Nat) (escaped_data : List Char)
  | Ack (length : Nat)
  | RepeatedConnect
  | Close (reason : List Char)
  | RetransmitPendingData
  | CheckSessionExpiry
deriving DecidableEq

/-- Type `enum SessionCommand` from `session.rs`. -/
inductive SessionCommand where
  | Write (data : List Char)
  | Shutdown
deriving DecidableEq

/-- The observable outputs of one handler call: datagrams sent on the UDP
channel, byte chunks sent up to the application, and whether a
`SessionTerminate` notification was sent to the router. -/
structure Effects where
  udp : List (List Char)
  upward : List (List Char)
  session_terminate : Bool
deriving DecidableEq

/-- Result of `handle_event`: `ok` models `Ok(())` with the updated state,
`closed` models an `Err(..)` return (which makes the session task exit),
carrying the effects emitted before returning and the error message. -/
inductive StepResult where
  | ok (s : Session) (eff : Effects)
  | closed (eff : Effects) (msg : List Char)
deriving DecidableEq

/-- Decimal rendering of a `Nat`, as Rust `format!("{}", n)` produces. -/
def natToDigitsFuel : Nat → Nat → List Char
  | 0, _ => []
  | fuel + 1, n =>
    if n < 10 then [Nat.digitChar n]
    else natToDigitsFuel fuel (n / 10) ++ [Nat.digitChar (n % 10)]

/-- Decimal rendering of a `Nat` (fuel `n + 1` always suffices). -/
def natToString (n : Nat) : List Char :=
  natToDigitsFuel (n + 1) n

/-- Datagram `format!("/close/{}/", session_id)` from `handle_close`. -/
def closeDatagram (sid : Nat) : List Char :=
  "/close/".toList ++ natToString sid ++ ['/']

/-- Datagram `format!("/ack/{}/{}/", session_id, pos)` from `send_ack`. -/
def ackDatagram (sid pos : Nat) : List Char :=
  "/ack/".toList ++ natToString sid ++ ['/'] ++ natToString pos ++ ['/']

/-- Datagram `format!("/data/{}/{}/{}/", session_id, pos, escaped)` from `send_data`
and the Ack branch of `handle_event`. -/
def dataDatagram (sid pos : Nat) (escaped : List Char) : List Char :=
  "/data/".toList ++ natToString sid ++ ['/'] ++ natToString pos ++ ['/'] ++ escaped ++ ['/']

/-- Loop body of `fn produce_chunks` from `session.rs`, for chunk size
`k + 1`, with fuel (each iteration consumes at least one element, so fuel
`data.length` suffices). -/
def produceChunksFuel (k : Nat) : Nat → List Char → List (List Char)
  | _, [] => []
  | 0, _ => []
  | fuel + 1, c :: rest =>
    let remaining := c :: rest
    let tk := min remaining.length (k + 1)
    remaining.take tk :: produceChunksFuel k fuel (remaining.drop tk)

/-- Function `fn produce_chunks(data: Vec<u8>, chunk_size: usize) -> Vec<Vec<u8>>`
from `session.rs`: empty result for `chunk_size == 0`, otherwise the
greedy split into chunks of at most `chunk_size` elements. -/
def produce_chunks (data : List Char) (chunk_size : Nat) : List (List Char) :=
  match chunk_size with
  | 0 => []
  | k + 1 => produceChunksFuel k data.length data

/-- Loop body of `async fn send_data`: emit one `/data/.../` datagram per
chunk, advancing `out_position` by the chunk length each time.  Returns the
final `out_position` and the datagrams in emission order. -/
def sendDataLoop (sid : Nat) : Nat → List (List Char) → Nat × List (List Char)
  | pos, [] => (pos, [])
  | pos, c :: rest =>
    let msg := dataDatagram sid pos (escape_data c)
    let r := sendDataLoop sid (pos + c.length) rest
    (r.1, msg :: r.2)

/-- Function `async fn send_data(&mut self, data: Vec<u8>)` from `session.rs`
(the `from_utf8` failure cannot occur in the character model). -/
def send_data (s : Session) (data : List Char) : Session × List (List Char) :=
  let r := sendDataLoop s.session_id s.out_position (produce_chunks data MAX_DATA_LENGTH)
  ({ s with out_position := r.1 }, r.2)

/-- Function `async fn handle_command` from `session.rs`: a `Write` appends to
`pending_out_payload` and then calls `send_data`; `Shutdown` does nothing. -/
def handle_command (s : Session) (cmd : SessionCommand) : Session × List (List Char) :=
  match cmd with
  | SessionCommand.Write data =>
    let s1 := { s with pending_out_payload := s.pending_out_payload ++ data }
    send_data s1 data
  | SessionCommand.Shutdown => (s, [])

/-- Function `async fn handle_event` from `session.rs`, at time `now` (seconds).
Branch for branch: `Close` and an expired `CheckSessionExpiry` run
`handle_close` (close datagram + `SessionTerminate`) and return `Err`;
`RepeatedConnect` does nothing (the `reset_session_expriry_timer` call is
commented out in the source, as is the one in the Ack branch); the `Data`
branch refreshes `last_activity` and either appends in-order data or
re-acks; the `Ack` branch implements the stale / invalid / partial / full
acknowledgement cases; `RetransmitPendingData` rewinds `out_position` and
re-sends `pending_out_payload`. -/
def handle_event (s : Session) (ev : SessionEvent) (now : Nat) : StepResult :=
  match ev with
  | SessionEvent.Close reason =>
    StepResult.closed ⟨[closeDatagram s.session_id], [], true⟩
      ("session close because ".toList ++ reason)
  | SessionEvent.CheckSessionExpiry =>
    if now - s.last_activity > 60 then
      StepResult.closed ⟨[closeDatagram s.session_id], [], true⟩
        "client is idle more than 60 seconds, close it".toList
    else
      StepResult.ok s ⟨[], [], false⟩
  | SessionEvent.RepeatedConnect =>
    StepResult.ok s ⟨[], [], false⟩
  | SessionEvent.Data pos escaped_data =>
    let s1 := { s with last_activity := now }
    if pos = s1.in_position then
      let unescaped := unescape_data escaped_data
      let s2 := { s1 with in_position := s1.in_position + unescaped.length }
      StepResult.ok s2 ⟨[ackDatagram s2.session_id s2.in_position], [unescaped], false⟩
    else
      StepResult.ok s1 ⟨[ackDatagram s1.session_id s1.in_position], [], false⟩
  | SessionEvent.Ack length =>
    if length ≤ s.acked_out_position then
      StepResult.ok s ⟨[], [], false⟩
    else if length > s.out_position then
      StepResult.closed ⟨[closeDatagram s.session_id], [], true⟩
        "client acked more bytes than sent".toList
    else if length < s.acked_out_position + s.pending_out_payload.length then
      let transmitted := length - s.acked_out_position
      let remaining := s.pending_out_payload.drop transmitted
      let payload := dataDatagram s.session_id (s.acked_out_position + transmitted)
        (escape_data remaining)
      StepResult.ok
        { s with pending_out_payload := remaining, acked_out_position := length }
        ⟨[payload], [], false⟩
    else if length = s.out_position then
      StepResult.ok { s with acked_out_position := length, pending_out_payload := [] }
        ⟨[], [], false⟩
    else
      StepResult.closed ⟨[], [], false⟩ "should not reach this".toList
  | SessionEvent.RetransmitPendingData =>
    let s1 := { s with out_position := s.out_position - s.pending_out_payload.length }
    let r := send_data s1 s1.pending_out_payload
    StepResult.ok r.1 ⟨r.2, [], false⟩

-- ===== Router (src/protohackers/problem7/lrcp/listener.rs) =====

/-- Function `LrcpListener::route_lrcp_message`, with the session map abstracted to
the list of known session ids.  Returns the updated map, the datagrams the
router itself emits, and the events it forwards to session actors
(spawning a new session on a fresh `Connect` is represented by inserting
the id). -/
def route_lrcp_message (sessions : List Nat) (msg : LrcpMessage) :
    List Nat × List (List Char) × List (Nat × SessionEvent) :=
  match msg with
  | LrcpMessage.Connect sid =>
    if sid ∈ sessions then
      (sessions, [ackDatagram sid 0], [(sid, SessionEvent.RepeatedConnect)])
    else
      (sid :: sessions, [ackDatagram sid 0], [])
  | LrcpMessage.Data sid pos escaped =>
    if sid ∈ sessions then
      (sessions, [], [(sid, SessionEvent.Data pos escaped)])
    else
      (sessions, [closeDatagram sid], [])
  | LrcpMessage.Ack sid len =>
    if sid ∈ sessions then
      (sessions, [], [(sid, SessionEvent.Ack len)])
    else
      (sessions, [], [])
  | LrcpMessage.ClientClose sid =>
    if sid ∈ sessions then
      (sessions, [], [(sid, SessionEvent.Close "client close connection".toList)])
    else
      (sessions, [closeDatagram sid], [])
  | LrcpMessage.SessionTerminate sid =>
    (sessions.erase sid, [], [])

-- ===== Line-reversal application (src/protohackers/problem7/server.rs) =====

/-- Model of `read_line` on a buffered stream: returns the first line
(up to and including its `\n`, or everything if no `\n` remains) and the
rest of the stream. -/
def readLine : List Char → List Char × List Char
  | [] => ([], [])
  | c :: rest =>
    if c = '\n' then ([c], rest)
    else
      let r := readLine rest
      (c :: r.1, r.2)

/-- What `handle_session` writes back for one line read by `read_line`:
strip a trailing `\n` if present, reverse the remaining characters, and
re-append the `\n` only if it was present. -/
def reverseLineResponse (line : List Char) : List Char :=
  if line.getLast? = some '\n' then line.dropLast.reverse ++ ['\n']
  else line.reverse

/-- The `loop` of `async fn handle_session` from `server.rs`, with fuel
(each iteration consumes at least one character of the input, so fuel
`input.length` suffices): read a line, write the reversed response, repeat
until `read_line` returns 0 bytes. -/
def handleSessionFuel : Nat → List Char → List Char
  | 0, _ => []
  | _ + 1, [] => []
  | fuel + 1, c :: rest =>
    let r := readLine (c :: rest)
    reverseLineResponse r.1 ++ handleSessionFuel fuel r.2

/-- Function `async fn handle_session` from `server.rs` as a stream transformer:
the bytes written back for a given input byte stream. -/
def handle_session (input : List Char) : List Char :=
  handleSessionFuel input.length input

-- ===== Specification-side definitions used by the claims =====

/-- The session-buffer invariant of the spec:
`pending_out` holds exactly `send_pos − acked_pos` bytes (stated without
truncated subtraction; it implies `acked_pos ≤ send_pos`). -/
def SessionInv (s : Session) : Prop :=
  s.out_position = s.acked_out_position + s.pending_out_payload.length

/-- Declarative description of a numeric wire field accepted by
`parse_int`: optionally a leading `+`, then a non-empty string of decimal
digits, whose value `n` is below `2^31`. -/
def NumLit (a : List Char) (n : Nat) : Prop :=
  ∃ ds, (a = ds ∨ a = '+' :: ds) ∧ ds ≠ [] ∧ ds.all Char.isDigit = true ∧
    digitsVal ds = n ∧ n < MAX_INT

/-- Declarative description of the datagrams `parse_packet` accepts: a
leading and trailing `/`, a tokenization without trailing backslash, and —
after discarding the *empty* fields — exactly one of the four recognized
shapes with numeric fields satisfying `NumLit`. -/
def AcceptedSpec (s : List Char) (m : LrcpMessage) : Prop :=
  s.head? = some '/' ∧ s.getLast? = some '/' ∧
  ∃ toks, tokenize (s.drop 1) = some toks ∧
    ((∃ a n, toks.filter (fun t => t ≠ []) = ["connect".toList, a] ∧
        NumLit a n ∧ m = LrcpMessage.Connect n) ∨
     (∃ a n, toks.filter (fun t => t ≠ []) = ["close".toList, a] ∧
        NumLit a n ∧ m = LrcpMessage.ClientClose n) ∨
     (∃ a b n k, toks.filter (fun t => t ≠ []) = ["ack".toList, a, b] ∧
        NumLit a n ∧ NumLit b k ∧ m = LrcpMessage.Ack n k) ∨
     (∃ a b d n k, toks.filter (fun t => t ≠ []) = ["data".toList, a, b, d] ∧
        NumLit a n ∧ NumLit b k ∧ m = LrcpMessage.Data n k d))

/-- Per-character escaping: what `escape_data` does to each input
character. -/
def escChar (c : Char) : List Char :=
  if c = '\\' then ['\\', '\\'] else if c = '/' then ['\\', '/'] else [c]

/-- Per-character effect of the first `unescape_data` pass (`\/` → `/`) on
an escaped stream. -/
def halfUnescChar (c : Char) : List Char :=
  if c = '\\' then ['\\', '\\'] else [c]

/-- Character-wise concatenation map (kept as its own recursion so that the
codec lemmas have plain structural equations). -/
def charConcatMap (f : Char → List Char) : List Char → List Char
  | [] => []
  | c :: rest => f c ++ charConcatMap f rest

-- ===== Lemmas and claim theorems =====

theorem charConcatMap_append (f : Char → List Char) (a b : List Char) :
    charConcatMap f (a ++ b) = charConcatMap f a ++ charConcatMap f b := by
  induction a with
  | nil => simp [charConcatMap]
  | cons c rest ih => simp [charConcatMap, ih]

theorem replaceFuel_single (p : Char) (r : List Char) :
    ∀ (fuel : Nat) (s : List Char), s.length ≤ fuel →
      replaceFuel [p] r fuel s = charConcatMap (fun c => if c = p then r else [c]) s := by
  intro fuel
  induction fuel with
  | zero =>
    intro s hs
    have : s = [] := List.length_eq_zero.mp (Nat.le_zero.mp hs)
    subst this
    simp [replaceFuel, charConcatMap]
  | succ n ih =>
    intro s hs
    match s with
    | [] => simp [replaceFuel, charConcatMap]
    | c :: rest =>
      by_cases hc : c = p
      · subst hc
        simp only [replaceFuel, charConcatMap]
        simp only [List.length_cons] at hs
        rw [if_pos ⟨by simp, by simp [List.isPrefixOf]⟩]
        simp [charConcatMap, ih rest (by omega)]
      · simp only [replaceFuel, charConcatMap]
        simp only [List.length_cons] at hs
        rw [if_neg]
        · simp [charConcatMap, ih rest (by omega), hc]
        · intro hcontra
          have h2 := hcontra.2
          simp [List.isPrefixOf] at h2
          exact hc h2.symm

theorem escape_data_eq_concatMap (s : List Char) :
    escape_data s = charConcatMap escChar s := by
  unfold escape_data rustReplace
  rw [replaceFuel_single '\\' ['\\', '\\'] s.length s le_rfl]
  rw [replaceFuel_single '/' ['\\', '/'] _ _ le_rfl]
  induction s with
  | nil => simp [charConcatMap]
  | cons c rest ih =>
    simp only [charConcatMap, charConcatMap_append, ih, escChar]
    by_cases hb : c = '\\'
    · subst hb; simp [charConcatMap]
    · by_cases hsl : c = '/'
      · subst hsl; simp [charConcatMap]
      · simp [hb, hsl, charConcatMap]

theorem slash_not_prefix_escaped (rest : List Char) :
    List.isPrefixOf ['/'] (charConcatMap escChar rest) = false := by
  cases rest with
  | nil => simp [charConcatMap, List.isPrefixOf]
  | cons c rs =>
    simp only [charConcatMap, escChar]
    by_cases hb : c = '\\'
    · subst hb; simp [List.isPrefixOf]
    · by_cases hsl : c = '/'
      · subst hsl; simp [List.isPrefixOf]
      · simp [hb, hsl, List.isPrefixOf]
        intro h
        exact hsl h.symm

theorem replaceFuel_cons_no_match (pat rep : List Char) (f : Nat) (c : Char) (rest : List Char)
    (h : List.isPrefixOf pat (c :: rest) = false) :
    replaceFuel pat rep (f + 1) (c :: rest) = c :: replaceFuel pat rep f rest := by
  simp [replaceFuel, h]

theorem replaceFuel_cons_match (pat rep : List Char) (f : Nat) (c : Char) (rest : List Char)
    (hne : pat ≠ []) (h : List.isPrefixOf pat (c :: rest) = true) :
    replaceFuel pat rep (f + 1) (c :: rest)
      = rep ++ replaceFuel pat rep f ((c :: rest).drop pat.length) := by
  simp [replaceFuel, hne, h]

example (T : List Char) : List.isPrefixOf ['\\', '/'] ('\\' :: '\\' :: T) = false := by
  simp [List.isPrefixOf]

example (rest : List Char) :
    List.isPrefixOf ['\\', '/'] ('\\' :: charConcatMap escChar rest) = false := by
  simp [List.isPrefixOf, slash_not_prefix_escaped]

example (T : List Char) (c : Char) (h : c ≠ '\\') :
    List.isPrefixOf ['\\', '/'] (c :: T) = false := by
  simp [List.isPrefixOf]
  intro hcontra
  exact absurd hcontra.symm h

theorem unesc_first_pass (b : List Char) :
    ∀ fuel : Nat, (charConcatMap escChar b).length ≤ fuel →
      replaceFuel ['\\', '/'] ['/'] fuel (charConcatMap escChar b)
        = charConcatMap halfUnescChar b := by
  induction b with
  | nil =>
    intro fuel _
    cases fuel <;> simp [charConcatMap, replaceFuel]
  | cons c rest ih =>
    intro fuel hlen
    by_cases hb : c = '\\'
    · subst hb
      have hexp : charConcatMap escChar ('\\' :: rest)
          = '\\' :: '\\' :: charConcatMap escChar rest := by
        simp [charConcatMap, escChar]
      rw [hexp] at hlen ⊢
      obtain ⟨f, rfl⟩ : ∃ f, fuel = f + 2 := ⟨fuel - 2, by simp at hlen; omega⟩
      rw [show f + 2 = (f + 1) + 1 from rfl]
      rw [replaceFuel_cons_no_match _ _ _ _ _ (by simp [List.isPrefixOf])]
      rw [replaceFuel_cons_no_match _ _ _ _ _
        (by simp [List.isPrefixOf, slash_not_prefix_escaped])]
      rw [ih f (by simp at hlen; omega)]
      simp [halfUnescChar, charConcatMap]
    · by_cases hsl : c = '/'
      · subst hsl
        have hexp : charConcatMap escChar ('/' :: rest)
            = '\\' :: '/' :: charConcatMap escChar rest := by
          simp [charConcatMap, escChar]
        rw [hexp] at hlen ⊢
        obtain ⟨f, rfl⟩ : ∃ f, fuel = f + 1 := ⟨fuel - 1, by simp at hlen; omega⟩
        rw [replaceFuel_cons_match _ _ _ _ _ (by simp) (by simp [List.isPrefixOf])]
        simp only [List.length_cons, List.length_nil, List.drop_succ_cons, List.drop_zero]
        rw [ih f (by simp at hlen; omega)]
        simp [halfUnescChar, charConcatMap]
      · have hexp : charConcatMap escChar (c :: rest)
            = c :: charConcatMap escChar rest := by
          simp [charConcatMap, escChar, hb, hsl]
        rw [hexp] at hlen ⊢
        obtain ⟨f, rfl⟩ : ∃ f, fuel = f + 1 := ⟨fuel - 1, by simp at hlen; omega⟩
        rw [replaceFuel_cons_no_match _ _ _ _ _ (by
          simp [List.isPrefixOf]
          intro hcontra
          exact absurd hcontra.symm hb)]
        rw [ih f (by simp at hlen; omega)]
        simp [halfUnescChar, charConcatMap, hb]

theorem unesc_second_pass (b : List Char) :
    ∀ fuel : Nat, (charConcatMap halfUnescChar b).length ≤ fuel →
      replaceFuel ['\\', '\\'] ['\\'] fuel (charConcatMap halfUnescChar b) = b := by
  induction b with
  | nil =>
    intro fuel _
    cases fuel <;> simp [charConcatMap, replaceFuel]
  | cons c rest ih =>
    intro fuel hlen
    by_cases hb : c = '\\'
    · subst hb
      have hexp : charConcatMap halfUnescChar ('\\' :: rest)
          = '\\' :: '\\' :: charConcatMap halfUnescChar rest := by
        simp [charConcatMap, halfUnescChar]
      rw [hexp] at hlen ⊢
      obtain ⟨f, rfl⟩ : ∃ f, fuel = f + 1 := ⟨fuel - 1, by simp at hlen; omega⟩
      rw [replaceFuel_cons_match _ _ _ _ _ (by simp) (by simp [List.isPrefixOf])]
      simp only [List.length_cons, List.length_nil, List.drop_succ_cons, List.drop_zero]
      rw [ih f (by simp at hlen; omega)]
      simp
    · have hexp : charConcatMap halfUnescChar (c :: rest)
          = c :: charConcatMap halfUnescChar rest := by
        simp [charConcatMap, halfUnescChar, hb]
      rw [hexp] at hlen ⊢
      obtain ⟨f, rfl⟩ : ∃ f, fuel = f + 1 := ⟨fuel - 1, by simp at hlen; omega⟩
      rw [replaceFuel_cons_no_match _ _ _ _ _ (by
        simp [List.isPrefixOf]
        intro hcontra
        exact absurd hcontra.symm hb)]
      rw [ih f (by simp at hlen; omega)]

theorem unescape_escape (b : List Char) : unescape_data (escape_data b) = b := by
  rw [escape_data_eq_concatMap]
  unfold unescape_data rustReplace
  rw [unesc_first_pass b _ le_rfl]
  rw [unesc_second_pass b _ le_rfl]

/-- C8: the escape codec round-trips: `unescape_data (escape_data b) = b` for
every character sequence `b`, and `escape_data (unescape_data e) = e` for
every well-formed escaped payload `e` (an image of `escape_data`). -/
theorem c8_escape_codec_roundtrip :
    (∀ b : List Char, unescape_data (escape_data b) = b) ∧
    (∀ e : List Char, (∃ b, escape_data b = e) → escape_data (unescape_data e) = e) := by
  constructor
  · exact unescape_escape
  · rintro e ⟨b, rfl⟩
    rw [unescape_escape b]

theorem c8_escape_codec_roundtrip_witness :
    unescape_data (escape_data "a/b\\".toList) = "a/b\\".toList ∧
    escape_data (unescape_data "\\/\\\\".toList) = "\\/\\\\".toList :=
  ⟨c8_escape_codec_roundtrip.1 _,
   c8_escape_codec_roundtrip.2 _ ⟨"/\\".toList, by decide⟩⟩

-- ===== chunking lemmas =====

theorem produceChunksFuel_spec (k : Nat) :
    ∀ (fuel : Nat) (rem : List Char), rem.length ≤ fuel →
      (produceChunksFuel k fuel rem).flatten = rem ∧
      ∀ c ∈ produceChunksFuel k fuel rem, c ≠ [] ∧ c.length ≤ k + 1 := by
  intro fuel
  induction fuel with
  | zero =>
    intro rem hrem
    have : rem = [] := List.length_eq_zero.mp (Nat.le_zero.mp hrem)
    subst this
    simp [produceChunksFuel]
  | succ n ih =>
    intro rem hrem
    match rem with
    | [] => simp [produceChunksFuel]
    | c :: rest =>
      simp only [produceChunksFuel, List.flatten_cons, List.mem_cons]
      have htk : 1 ≤ min (c :: rest).length (k + 1) := by
        simp only [List.length_cons]
        omega
      have hdroplen : ((c :: rest).drop (min (c :: rest).length (k + 1))).length ≤ n := by
        simp only [List.length_drop, List.length_cons] at *
        omega
      obtain ⟨hjoin, hmem⟩ := ih _ hdroplen
      refine ⟨?_, ?_⟩
      · rw [hjoin, List.take_append_drop]
      · intro ch hch
        rcases hch with hch | hch
        · subst hch
          constructor
          · intro hcontra
            have := congrArg List.length hcontra
            simp only [List.length_take, List.length_nil] at this
            omega
          · simp only [List.length_take]
            omega
        · exact hmem ch hch

theorem produce_chunks_flatten (data : List Char) (k : Nat) :
    (produce_chunks data (k + 1)).flatten = data :=
  (produceChunksFuel_spec k data.length data le_rfl).1

theorem sendDataLoop_fst (sid : Nat) :
    ∀ (chunks : List (List Char)) (pos : Nat),
      (sendDataLoop sid pos chunks).1 = pos + (chunks.map List.length).sum := by
  intro chunks
  induction chunks with
  | nil => intro pos; simp [sendDataLoop]
  | cons c rest ih =>
    intro pos
    simp only [sendDataLoop, List.map_cons, List.sum_cons]
    rw [ih]
    omega

theorem send_data_fst (s : Session) (data : List Char) :
    (send_data s data).1 = { s with out_position := s.out_position + data.length } := by
  unfold send_data
  dsimp only
  rw [sendDataLoop_fst]
  have hsum : ((produce_chunks data MAX_DATA_LENGTH).map List.length).sum = data.length := by
    rw [← List.length_flatten]
    rw [show MAX_DATA_LENGTH = 2999 + 1 from rfl, produce_chunks_flatten]
  rw [hsum]

/-- C10: for every byte vector and every positive chunk size,
`produce_chunks` splits the data into non-empty chunks of at most the chunk
size whose concatenation is exactly the data; for chunk size `0` it
returns the empty list. -/
theorem c10_produce_chunks_spec (data : List Char) (chunk_size : Nat) :
    (0 < chunk_size →
      (produce_chunks data chunk_size).flatten = data ∧
      ∀ c ∈ produce_chunks data chunk_size, c ≠ [] ∧ c.length ≤ chunk_size) ∧
    produce_chunks data 0 = [] := by
  constructor
  · intro hpos
    match chunk_size, hpos with
    | k + 1, _ => exact produceChunksFuel_spec k data.length data le_rfl
  · rfl

theorem c10_produce_chunks_spec_witness :
    (0 < 2) ∧
    ((produce_chunks "abcde".toList 2).flatten = "abcde".toList ∧
      ∀ c ∈ produce_chunks "abcde".toList 2, c ≠ [] ∧ c.length ≤ 2) :=
  ⟨by decide, (c10_produce_chunks_spec "abcde".toList 2).1 (by decide)⟩

/-- C6: the session buffer invariant `send_pos = acked_pos + |pending_out|`
(hence `acked_pos ≤ send_pos` and `|pending_out| = send_pos − acked_pos`)
is preserved by every event and every command the session handles, and
under it the final `should not reach this` error branch of the Ack handler
is unreachable. -/
theorem c6_session_buffer_invariant (s : Session) (ev : SessionEvent) (cmd : SessionCommand)
    (now len : Nat) (s2 : Session) (eff2 eff3 : Effects) (msg : List Char)
    (hinv : SessionInv s) :
    (handle_event s ev now = StepResult.ok s2 eff2 → SessionInv s2) ∧
    (handle_event s (SessionEvent.Ack len) now = StepResult.closed eff3 msg →
      msg ≠ "should not reach this".toList) ∧
    SessionInv (handle_command s cmd).1 := by
  refine ⟨?_, ?_, ?_⟩
  · intro h
    cases ev with
    | Close reason => simp [handle_event] at h
    | CheckSessionExpiry =>
      simp only [handle_event] at h
      split at h
      · simp at h
      · obtain ⟨rfl, -⟩ := StepResult.ok.inj h
        exact hinv
    | RepeatedConnect =>
      obtain ⟨rfl, -⟩ := StepResult.ok.inj (by simpa [handle_event] using h)
      exact hinv
    | Data pos escaped_data =>
      simp only [handle_event] at h
      split at h
      · obtain ⟨rfl, -⟩ := StepResult.ok.inj h
        simpa [SessionInv] using hinv
      · obtain ⟨rfl, -⟩ := StepResult.ok.inj h
        simpa [SessionInv] using hinv
    | Ack length =>
      simp only [handle_event] at h
      split at h
      · obtain ⟨rfl, -⟩ := StepResult.ok.inj h
        exact hinv
      · split at h
        · simp at h
        · split at h
          · obtain ⟨rfl, -⟩ := StepResult.ok.inj h
            simp only [SessionInv] at hinv ⊢
            simp only [List.length_drop]
            omega
          · split at h
            · obtain ⟨rfl, -⟩ := StepResult.ok.inj h
              simp only [SessionInv] at hinv ⊢
              simp only [List.length_nil]
              omega
            · simp at h
    | RetransmitPendingData =>
      simp only [handle_event] at h
      obtain ⟨rfl, -⟩ := StepResult.ok.inj h
      rw [send_data_fst]
      simp only [SessionInv] at hinv ⊢
      omega
  · intro h
    simp only [handle_event] at h
    split at h
    · simp at h
    · split at h
      · obtain ⟨-, rfl⟩ := StepResult.closed.inj h
        decide
      · split at h
        · simp at h
        · split at h
          · simp at h
          · obtain ⟨-, rfl⟩ := StepResult.closed.inj h
            simp only [SessionInv] at hinv
            omega
  · cases cmd with
    | Write data =>
      simp only [handle_command]
      rw [send_data_fst]
      simp only [SessionInv] at hinv ⊢
      simp only [List.length_append]
      omega
    | Shutdown => exact hinv

theorem c6_session_buffer_invariant_witness :
    SessionInv ⟨1, 0, 5, 2, ['a', 'b', 'c'], 0⟩ ∧ SessionInv ⟨1, 0, 5, 4, ['c'], 0⟩ :=
  ⟨by unfold SessionInv; decide,
   (c6_session_buffer_invariant ⟨1, 0, 5, 2, ['a', 'b', 'c'], 0⟩ (SessionEvent.Ack 4)
      SessionCommand.Shutdown 0 4 ⟨1, 0, 5, 4, ['c'], 0⟩
      ⟨[dataDatagram 1 4 ['c']], [], false⟩ ⟨[], [], false⟩ []
      (by unfold SessionInv; decide)).1 (by decide)⟩

/-- C3: on a `Data{pos, escaped}` event for an open session: if `pos` equals
the receive position, the unescaped bytes are delivered upward, the receive
position advances by their count, and `Ack` at the new position is emitted;
otherwise nothing is buffered or delivered and `Ack` at the current position
is emitted (in both cases `last_activity` is refreshed). -/
theorem c3_data_event_behaviour (s : Session) (pos : Nat) (escaped : List Char) (now : Nat) :
    (pos = s.in_position →
      handle_event s (SessionEvent.Data pos escaped) now =
        StepResult.ok
          { s with in_position := s.in_position + (unescape_data escaped).length,
                   last_activity := now }
          ⟨[ackDatagram s.session_id (s.in_position + (unescape_data escaped).length)],
           [unescape_data escaped], false⟩) ∧
    (pos ≠ s.in_position →
      handle_event s (SessionEvent.Data pos escaped) now =
        StepResult.ok { s with last_activity := now }
          ⟨[ackDatagram s.session_id s.in_position], [], false⟩) := by
  constructor
  · intro h
    simp [handle_event, h]
  · intro h
    simp [handle_event, h]

theorem c3_data_event_behaviour_witness :
    handle_event ⟨1, 0, 0, 0, [], 0⟩ (SessionEvent.Data 0 ['h', 'i']) 3 =
      StepResult.ok ⟨1, 2, 0, 0, [], 3⟩ ⟨[ackDatagram 1 2], [['h', 'i']], false⟩ := by
  have h := (c3_data_event_behaviour ⟨1, 0, 0, 0, [], 0⟩ 0 ['h', 'i'] 3).1 rfl
  exact h.trans (by decide)

/-- C4 counterexample: an `Ack` for a session id that is not in the router
map is silently dropped — the router emits no datagram at all, in
particular not the `/close/SID/` reply the claim requires for every
non-Connect message. -/
theorem c4_counterexample_unknown_ack_silently_dropped :
    route_lrcp_message [] (LrcpMessage.Ack 999 0) = ([], [], []) ∧
    closeDatagram 999 ∉ (route_lrcp_message [] (LrcpMessage.Ack 999 0)).2.1 := by
  decide

/-- C4 amended: an `Ack{length}` with `length` beyond both the acknowledged
and the sent position makes the session emit exactly one Close datagram and
destroy itself (error return plus `SessionTerminate`); afterwards `Data` and
`Close` datagrams for a session id not in the router map are answered with
`/close/SID/` and no session state is created, while an `Ack` for an
unknown session id is silently dropped. -/
theorem c4_amended_close_behaviour :
    (∀ (s : Session) (len now : Nat),
      s.acked_out_position < len → s.out_position < len →
      handle_event s (SessionEvent.Ack len) now =
        StepResult.closed ⟨[closeDatagram s.session_id], [], true⟩
          "client acked more bytes than sent".toList) ∧
    (∀ (sids : List Nat) (sid pos : Nat) (escaped : List Char), sid ∉ sids →
      route_lrcp_message sids (LrcpMessage.Data sid pos escaped)
        = (sids, [closeDatagram sid], [])) ∧
    (∀ (sids : List Nat) (sid : Nat), sid ∉ sids →
      route_lrcp_message sids (LrcpMessage.ClientClose sid)
        = (sids, [closeDatagram sid], [])) ∧
    (∀ (sids : List Nat) (sid len : Nat), sid ∉ sids →
      route_lrcp_message sids (LrcpMessage.Ack sid len) = (sids, [], [])) := by
  refine ⟨?_, ?_, ?_, ?_⟩
  · intro s len now h1 h2
    simp only [handle_event]
    rw [if_neg (by omega), if_pos (by omega)]
  · intro sids sid pos escaped h
    simp [route_lrcp_message, h]
  · intro sids sid h
    simp [route_lrcp_message, h]
  · intro sids sid len h
    simp [route_lrcp_message, h]

theorem c4_amended_close_behaviour_witness :
    handle_event ⟨5, 0, 0, 0, [], 0⟩ (SessionEvent.Ack 1000) 0 =
      StepResult.closed ⟨[closeDatagram 5], [], true⟩
        "client acked more bytes than sent".toList ∧
    route_lrcp_message [] (LrcpMessage.Data 999 0 ['x']) = ([], [closeDatagram 999], []) :=
  ⟨c4_amended_close_behaviour.1 ⟨5, 0, 0, 0, [], 0⟩ 1000 0 (by decide) (by decide),
   c4_amended_close_behaviour.2.1 [] 999 0 ['x'] (by simp)⟩

/-- C7 (divergence evidence): a duplicate Connect (`RepeatedConnect`) and an
inbound `Ack` leave `last_activity` unchanged (the refresh calls are
commented out in the source), while a `Data` event does refresh it — so not
every inbound wire message for a known session restarts the idle timer. -/
theorem c7_idle_refresh_missing :
    handle_event ⟨7, 0, 0, 0, [], 0⟩ SessionEvent.RepeatedConnect 100 =
      StepResult.ok ⟨7, 0, 0, 0, [], 0⟩ ⟨[], [], false⟩ ∧
    handle_event ⟨7, 0, 0, 0, [], 0⟩ (SessionEvent.Ack 0) 100 =
      StepResult.ok ⟨7, 0, 0, 0, [], 0⟩ ⟨[], [], false⟩ ∧
    handle_event ⟨7, 0, 0, 0, [], 0⟩ (SessionEvent.Data 1 ['x']) 100 =
      StepResult.ok ⟨7, 0, 0, 0, [], 100⟩ ⟨[ackDatagram 7 0], [], false⟩ := by
  decide

/-- C2 (divergence evidence): the wire datagram `/data/1/0/\x/` carries the
two payload bytes `\x`, but the tokenizer drops the lone backslash, so the
session delivers only `x` upward — the decoded bytes are not the bytes the
peer placed on the wire. -/
theorem c2_lone_backslash_dropped :
    parse_packet "/data/1/0/\\x/".toList = some (LrcpMessage.Data 1 0 ['x']) ∧
    handle_event ⟨1, 0, 0, 0, [], 0⟩ (SessionEvent.Data 0 ['x']) 5 =
      StepResult.ok ⟨1, 1, 0, 0, [], 5⟩ ⟨[ackDatagram 1 1], [['x']], false⟩ ∧
    (['x'] : List Char) ≠ ['\\', 'x'] := by
  decide

set_option maxRecDepth 20000 in
/-- C1 (divergence evidence): a single application write of 1100 bytes is
sent by `send_data` as one `/data/1/0/...'/` datagram of 1111 encoded bytes,
which is not strictly less than 1000 — `MAX_DATA_LENGTH = 3000` chunks do
not respect the 1000-byte datagram limit. -/
theorem c1_data_datagram_exceeds_limit :
    ((handle_command ⟨1, 0, 0, 0, [], 0⟩
        (SessionCommand.Write (List.replicate 1100 'a'))).2.map List.length) = [1111] ∧
    ¬(1111 < 1000) := by
  decide

-- ===== line-reversal application lemmas =====

theorem readLine_split (l : List Char) :
    (readLine l).1 ++ (readLine l).2 = l ∧ (l ≠ [] → (readLine l).1 ≠ []) := by
  induction l with
  | nil => simp [readLine]
  | cons c rest ih =>
    by_cases hc : c = '\n'
    · subst hc
      simp [readLine]
    · simp only [readLine, if_neg hc]
      refine ⟨?_, ?_⟩
      · simpa using ih.1
      · intro _
        simp

theorem readLine_no_newline (p : List Char) (h : ∀ c ∈ p, c ≠ '\n') :
    readLine p = (p, []) := by
  induction p with
  | nil => simp [readLine]
  | cons c rest ih =>
    have hc : c ≠ '\n' := h c (by simp)
    simp only [readLine, if_neg hc]
    rw [ih (fun x hx => h x (by simp [hx]))]

theorem readLine_line (l rest : List Char) (h : ∀ c ∈ l, c ≠ '\n') :
    readLine (l ++ '\n' :: rest) = (l ++ ['\n'], rest) := by
  induction l with
  | nil => simp [readLine]
  | cons c tl ih =>
    have hc : c ≠ '\n' := h c (by simp)
    simp only [List.cons_append, readLine, if_neg hc, List.append_eq]
    rw [ih (fun x hx => h x (by simp [hx]))]

theorem handleSessionFuel_irrel :
    ∀ (f1 f2 : Nat) (input : List Char), input.length ≤ f1 → input.length ≤ f2 →
      handleSessionFuel f1 input = handleSessionFuel f2 input := by
  intro f1
  induction f1 with
  | zero =>
    intro f2 input h1 _
    have : input = [] := List.length_eq_zero.mp (Nat.le_zero.mp h1)
    subst this
    cases f2 <;> simp [handleSessionFuel]
  | succ n ih =>
    intro f2 input h1 h2
    match input with
    | [] => cases f2 <;> simp [handleSessionFuel]
    | c :: rest =>
      obtain ⟨g, rfl⟩ : ∃ g, f2 = g + 1 := by
        cases f2 with
        | zero => simp at h2
        | succ g => exact ⟨g, rfl⟩
      simp only [handleSessionFuel]
      obtain ⟨hsplit, hne⟩ := readLine_split (c :: rest)
      have hlen : (readLine (c :: rest)).2.length ≤ rest.length := by
        have h1l := congrArg List.length hsplit
        simp only [List.length_append, List.length_cons] at h1l
        have hpos : 1 ≤ (readLine (c :: rest)).1.length := by
          have := hne (by simp)
          cases hh : (readLine (c :: rest)).1 with
          | nil => exact absurd hh this
          | cons a b => simp [hh]
        omega
      rw [ih g (readLine (c :: rest)).2 (by simp at h1; omega) (by simp at h2; omega)]

theorem handle_session_unfold (input : List Char) (h : input ≠ []) :
    handle_session input
      = reverseLineResponse (readLine input).1 ++ handle_session (readLine input).2 := by
  match input with
  | c :: rest =>
    unfold handle_session
    simp only [List.length_cons, handleSessionFuel]
    obtain ⟨hsplit, hne⟩ := readLine_split (c :: rest)
    have hlen : (readLine (c :: rest)).2.length ≤ rest.length := by
      have h1l := congrArg List.length hsplit
      simp only [List.length_append, List.length_cons] at h1l
      have hpos : 1 ≤ (readLine (c :: rest)).1.length := by
        have := hne (by simp)
        cases hh : (readLine (c :: rest)).1 with
        | nil => exact absurd hh this
        | cons a b => simp [hh]
      omega
    rw [handleSessionFuel_irrel rest.length (readLine (c :: rest)).2.length
      (readLine (c :: rest)).2 hlen le_rfl]

/-- C9 counterexample: an input stream that ends (EOF) with the partial line
`abc` and no terminator: `handle_session` writes back `cba` — the partial
line is processed and written, not discarded. -/
theorem c9_counterexample_partial_line_written :
    handle_session "abc".toList = "cba".toList ∧ handle_session "abc".toList ≠ [] := by
  decide

/-- C9 amended: at end-of-stream a trailing partial line with no terminating
newline is not discarded: it is reversed and written back without a trailing
newline; a fully terminated line is reversed and written back with its
newline, and the loop continues on the rest of the stream. -/
theorem c9_amended_partial_line_reversed :
    (∀ p : List Char, (∀ c ∈ p, c ≠ '\n') → handle_session p = p.reverse) ∧
    (∀ l rest : List Char, (∀ c ∈ l, c ≠ '\n') →
      handle_session (l ++ '\n' :: rest) = l.reverse ++ '\n' :: handle_session rest) := by
  constructor
  · intro p hp
    match p with
    | [] => rfl
    | c :: tl =>
      rw [handle_session_unfold _ (by simp)]
      rw [readLine_no_newline _ hp]
      have hlast : (c :: tl).getLast? ≠ some '\n' := by
        intro hcontra
        have hmem : '\n' ∈ (c :: tl) := by
          obtain ⟨hne2, heq⟩ := List.mem_getLast?_eq_getLast
            (l := c :: tl) (x := '\n') (by simpa [Option.mem_def] using hcontra)
          rw [heq]
          exact List.getLast_mem hne2
        exact hp _ hmem rfl
      simp only [reverseLineResponse, if_neg hlast]
      simp [handle_session, handleSessionFuel]
  · intro l rest hl
    have hne : l ++ '\n' :: rest ≠ [] := by simp
    rw [handle_session_unfold _ hne]
    rw [readLine_line _ _ hl]
    simp only [reverseLineResponse, List.getLast?_concat, if_pos rfl,
      List.dropLast_concat]
    simp

theorem c9_amended_partial_line_reversed_witness :
    handle_session "xy".toList = "xy".toList.reverse ∧
    handle_session ("ab".toList ++ '\n' :: "c".toList)
      = "ab".toList.reverse ++ '\n' :: handle_session "c".toList :=
  ⟨c9_amended_partial_line_reversed.1 "xy".toList (by decide),
   c9_amended_partial_line_reversed.2 "ab".toList "c".toList (by decide)⟩

-- ===== parser characterization lemmas =====

theorem parse_int_iff (a : List Char) (n : Nat) :
    parse_int a = some n ↔ NumLit a n := by
  constructor
  · intro h
    by_cases hplus : a.head? = some '+'
    · obtain ⟨t, rfl⟩ : ∃ t, a = '+' :: t := by
        cases a with
        | nil => simp at hplus
        | cons c t =>
          simp only [List.head?_cons, Option.some.injEq] at hplus
          exact ⟨t, by rw [hplus]⟩
      have hr : rustParseU64 ('+' :: t)
          = if t ≠ [] ∧ t.all Char.isDigit = true then some (digitsVal t) else none := by
        simp [rustParseU64]
      unfold parse_int at h
      rw [hr] at h
      split at h
      · rename_i nmid heq
        split at h
        · rename_i hlt
          have hv := Option.some.inj h
          split at heq
          · rename_i hok
            have hd := Option.some.inj heq
            exact ⟨t, Or.inr rfl, hok.1, hok.2, hd.trans hv, hv ▸ hlt⟩
          · simp at heq
        · simp at h
      · simp at h
    · have hr : rustParseU64 a
          = if a ≠ [] ∧ a.all Char.isDigit = true then some (digitsVal a) else none := by
        simp [rustParseU64, hplus]
      unfold parse_int at h
      rw [hr] at h
      split at h
      · rename_i nmid heq
        split at h
        · rename_i hlt
          have hv := Option.some.inj h
          split at heq
          · rename_i hok
            have hd := Option.some.inj heq
            exact ⟨a, Or.inl rfl, hok.1, hok.2, hd.trans hv, hv ▸ hlt⟩
          · simp at heq
        · simp at h
      · simp at h
  · rintro ⟨ds, hds, hne, hdig, hval, hlt⟩
    rcases hds with rfl | rfl
    · have hplus : a.head? ≠ some '+' := by
        cases a with
        | nil => simp
        | cons c t =>
          intro hcontra
          have hceq : c = '+' := by simpa using hcontra
          have hc := List.all_eq_true.mp hdig c (by simp)
          rw [hceq] at hc
          simp at hc
      have hr : rustParseU64 a
          = if a ≠ [] ∧ a.all Char.isDigit = true then some (digitsVal a) else none := by
        simp [rustParseU64, hplus]
      unfold parse_int
      rw [hr, if_pos ⟨hne, hdig⟩]
      simp only [hval]
      simp [hlt]
    · have hr : rustParseU64 ('+' :: ds)
          = if ds ≠ [] ∧ ds.all Char.isDigit = true then some (digitsVal ds) else none := by
        simp [rustParseU64]
      unfold parse_int
      rw [hr, if_pos ⟨hne, hdig⟩]
      simp only [hval]
      simp [hlt]

theorem parseParts_complete (parts : List (List Char)) (m : LrcpMessage)
    (h : (∃ a n, parts = ["connect".toList, a] ∧ NumLit a n ∧ m = LrcpMessage.Connect n) ∨
      (∃ a n, parts = ["close".toList, a] ∧ NumLit a n ∧ m = LrcpMessage.ClientClose n) ∨
      (∃ a b n k, parts = ["ack".toList, a, b] ∧ NumLit a n ∧ NumLit b k ∧
        m = LrcpMessage.Ack n k) ∨
      (∃ a b d n k, parts = ["data".toList, a, b, d] ∧ NumLit a n ∧ NumLit b k ∧
        m = LrcpMessage.Data n k d)) :
    parseParts parts = some m := by
  rcases h with ⟨a, n, rfl, hnum, rfl⟩ | ⟨a, n, rfl, hnum, rfl⟩ |
    ⟨a, b, n, k, rfl, hnum1, hnum2, rfl⟩ | ⟨a, b, d, n, k, rfl, hnum1, hnum2, rfl⟩
  · simp [parseParts, (parse_int_iff a n).mpr hnum]
  · simp [parseParts, (parse_int_iff a n).mpr hnum]
  · simp [parseParts, (parse_int_iff a n).mpr hnum1, (parse_int_iff b k).mpr hnum2]
  · simp [parseParts, (parse_int_iff a n).mpr hnum1, (parse_int_iff b k).mpr hnum2]

theorem parseParts_sound (parts : List (List Char)) (m : LrcpMessage)
    (h : parseParts parts = some m) :
    (∃ a n, parts = ["connect".toList, a] ∧ NumLit a n ∧ m = LrcpMessage.Connect n) ∨
    (∃ a n, parts = ["close".toList, a] ∧ NumLit a n ∧ m = LrcpMessage.ClientClose n) ∨
    (∃ a b n k, parts = ["ack".toList, a, b] ∧ NumLit a n ∧ NumLit b k ∧
      m = LrcpMessage.Ack n k) ∨
    (∃ a b d n k, parts = ["data".toList, a, b, d] ∧ NumLit a n ∧ NumLit b k ∧
      m = LrcpMessage.Data n k d) := by
  match parts with
  | [] => simp [parseParts] at h
  | [t] => simp [parseParts] at h
  | [t, a] =>
    simp only [parseParts] at h
    by_cases h1 : t = "connect".toList
    · rw [if_pos h1] at h
      obtain ⟨n, hpi, hm⟩ := Option.map_eq_some'.mp h
      exact Or.inl ⟨a, n, by rw [h1], (parse_int_iff a n).mp hpi, hm.symm⟩
    · by_cases h2 : t = "close".toList
      · rw [if_neg h1, if_pos h2] at h
        obtain ⟨n, hpi, hm⟩ := Option.map_eq_some'.mp h
        exact Or.inr (Or.inl ⟨a, n, by rw [h2], (parse_int_iff a n).mp hpi, hm.symm⟩)
      · rw [if_neg h1, if_neg h2] at h
        simp at h
  | [t, a, b] =>
    simp only [parseParts] at h
    by_cases h1 : t = "ack".toList
    · rw [if_pos h1] at h
      obtain ⟨n, hpi1, hrest⟩ := Option.bind_eq_some.mp h
      obtain ⟨k, hpi2, hm⟩ := Option.map_eq_some'.mp hrest
      exact Or.inr (Or.inr (Or.inl ⟨a, b, n, k, by rw [h1],
        (parse_int_iff a n).mp hpi1, (parse_int_iff b k).mp hpi2, hm.symm⟩))
    · rw [if_neg h1] at h
      simp at h
  | [t, a, b, d] =>
    simp only [parseParts] at h
    by_cases h1 : t = "data".toList
    · rw [if_pos h1] at h
      obtain ⟨n, hpi1, hrest⟩ := Option.bind_eq_some.mp h
      obtain ⟨k, hpi2, hm⟩ := Option.map_eq_some'.mp hrest
      exact Or.inr (Or.inr (Or.inr ⟨a, b, d, n, k, by rw [h1],
        (parse_int_iff a n).mp hpi1, (parse_int_iff b k).mp hpi2, hm.symm⟩))
    · rw [if_neg h1] at h
      simp at h
  | t :: a :: b :: d :: e :: rest => simp [parseParts] at h

/-- C5 counterexample: `/connect//12345/` is not one of the four recognized
forms (it has an extra empty field), yet `parse_packet` accepts it, because
empty fields are discarded before dispatch; dually, the recognized form
`/data/SID/POS/ESCAPED/` with empty `ESCAPED` is rejected. -/
theorem c5_counterexample_empty_fields_accepted :
    parse_packet "/connect//12345/".toList = some (LrcpMessage.Connect 12345) ∧
    parse_packet "/data/1/0//".toList = none := by
  decide

/-- C5 amended: `parse_packet` accepts exactly the datagrams that start and
end with `/`, tokenize without error, and whose fields — after discarding
all empty fields — match one of the four recognized shapes, with numeric
fields in Rust unsigned-integer syntax (optional leading `+`, then decimal
digits) of value below `2^31`; everything else (including every non-UTF-8
datagram, rejected before this function in the source) fails parsing. -/
theorem c5_amended_parse_characterization (s : List Char) (m : LrcpMessage) :
    parse_packet s = some m ↔ AcceptedSpec s m := by
  unfold parse_packet AcceptedSpec
  by_cases hguard : s.head? = some '/' ∧ s.getLast? = some '/'
  · rw [if_pos hguard]
    cases htk : tokenize (s.drop 1) with
    | none =>
      constructor
      · intro h
        simp at h
      · rintro ⟨-, -, toks, htoks, -⟩
        simp at htoks
    | some toks =>
      constructor
      · intro h
        exact ⟨hguard.1, hguard.2, toks, rfl,
          parseParts_sound (toks.filter (fun t => t ≠ [])) m h⟩
      · rintro ⟨-, -, toks2, htoks2, hsh⟩
        obtain rfl := Option.some.inj htoks2
        exact parseParts_complete _ m hsh
  · rw [if_neg hguard]
    constructor
    · intro h
      simp at h
    · rintro ⟨hA, hB, -⟩
      exact absurd ⟨hA, hB⟩ hguard

theorem c5_amended_parse_characterization_witness :
    AcceptedSpec "/connect//12345/".toList (LrcpMessage.Connect 12345) :=
  (c5_amended_parse_characterization "/connect//12345/".toList
    (LrcpMessage.Connect 12345)).mp (by decide)
